import Mathlib

/-!
# DiStore: verification of the node-local storage engine

A shallow embedding of the DiStore key-value store's node-local components,
translated from the Go sources:

* `storage/memory_storage.go` — the base in-memory map (`Store` below);
* `storage/atomic.go`         — `AtomicStorage.CompareAndSwap`;
* `storage/cas.go`            — `CASStorage.CompareAndSet` / `AcquireLock` / `ReleaseLock`;
* `storage/vector_clock.go`   — `VectorClock.Compare`, `ConflictResolver.ResolveConflict`;
* the compression decorator   — `CompressedStorage.Set` / `Get`;
* `replication/replication.go`— `replicateSetWithQuorum`, `ReplicateDelete`;
* `storage/wal.go`            — `WALStorage.Set`/`Delete`, `WriteAheadLog.Recover`;
* `synchro/merkle_tree.go`    — `NewMerkleTree`, `buildTree`, `CompareTrees`;
* the cache decorator         — `CacheStorage.Get`/`Set`/`Delete`/`addToCache`/`evict`.

Go `map[string]string` values are modelled as association lists with unique
keys; Go `nil` errors as `Option`/`Except` values.  Wall-clock reads
(`time.Now()`) are passed in explicitly as integer parameters.
-/

/-! ## Base store (`storage/memory_storage.go`)

`MemoryStorage` keeps a `map[string]string`.  We model the map as an
association list; `Set` overwrites, `Get` of a missing key yields
`ErrKeyNotFound` (here: `none`), `Delete` of a missing key is an error in Go
but its effect on the map is the same as removing nothing. -/

/-- Lookup of a key in an association list (first binding wins; the lists we
build keep at most one binding per key). -/
def lookupKV {β : Type} : List (String × β) → String → Option β
  | [], _ => none
  | (k', v) :: rest, k => if k' = k then some v else lookupKV rest k

/-- The `map[string]string` held by `MemoryStorage`. -/
structure Store where
  data : List (String × String)
  deriving Repr, DecidableEq

/-- The empty map created by `NewMemoryStorage`. -/
def Store.empty : Store := ⟨[]⟩

namespace Store

/-- `Get`: map lookup; `none` models `ErrKeyNotFound`. -/
def get (s : Store) (k : String) : Option String :=
  lookupKV s.data k

/-- `Set`: `s.data[key] = value` — overwrite the binding for `key`. -/
def set (s : Store) (k v : String) : Store :=
  ⟨(k, v) :: s.data.filter (fun p => p.1 ≠ k)⟩

/-- `Delete`: `delete(s.data, key)` — remove the binding for `key`. -/
def del (s : Store) (k : String) : Store :=
  ⟨s.data.filter (fun p => p.1 ≠ k)⟩

/-- Key membership in the map. -/
def hasKey (s : Store) (k : String) : Bool :=
  (s.get k).isSome

@[simp] theorem get_empty (k : String) : Store.empty.get k = none := rfl

theorem lookupKV_filter {β : Type} (l : List (String × β)) (k : String)
    (p : String × β → Bool)
    (hp : ∀ v, p (k, v) = true) : lookupKV (l.filter p) k = lookupKV l k := by
  induction l with
  | nil => simp
  | cons hd tl ih =>
    obtain ⟨k', v'⟩ := hd
    by_cases hk : k' = k
    · subst hk
      simp [List.filter, hp v', lookupKV, ih]
    · by_cases hpk : p (k', v')
      · simp [List.filter, hpk, lookupKV, hk, ih]
      · simp only [List.filter, hpk]
        rw [ih]
        simp [lookupKV, hk]

@[simp] theorem get_del_self (s : Store) (k : String) : (s.del k).get k = none := by
  obtain ⟨l⟩ := s
  induction l with
  | nil => rfl
  | cons hd tl ih =>
    by_cases hk : hd.1 = k
    · simpa [del, get, List.filter, hk] using ih
    · simpa [del, get, List.filter, hk, lookupKV] using ih

@[simp] theorem get_del_ne (s : Store) (k k' : String) (h : k ≠ k') :
    (s.del k).get k' = s.get k' := by
  unfold del get
  apply lookupKV_filter
  intro v
  simp [Ne.symm h]

@[simp] theorem get_set_self (s : Store) (k v : String) : (s.set k v).get k = some v := by
  simp [set, get, lookupKV]

@[simp] theorem get_set_ne (s : Store) (k v k' : String) (h : k ≠ k') :
    (s.set k v).get k' = s.get k' := by
  simp only [set, get, lookupKV, if_neg h]
  apply lookupKV_filter
  intro v'
  simp [Ne.symm h]

end Store

/-! ## Atomic layer (`storage/atomic.go`)

`AtomicStorage` wraps a store with a mutex.  `CompareAndSwap(key, oldValue,
newValue)` reads the current value (tolerating `ErrKeyNotFound`), treats an
absent key as matching `oldValue == ""`, and swaps on match.  It returns
`(bool, error)`; a failed comparison is `(false, nil)`. -/

namespace AtomicStorage

/-- Result of `CompareAndSwap`: the returned `bool`, the returned `error`
(`none` = Go `nil`), and the store afterwards. -/
structure SwapResult where
  swapped : Bool
  err : Option String
  store : Store
  deriving Repr, DecidableEq

/-- `AtomicStorage.CompareAndSwap` from `storage/atomic.go`.  The inner store
is the in-memory map, whose `Get` only ever fails with `ErrKeyNotFound` and
whose `Set` never fails, so the early error returns cannot fire. -/
def CompareAndSwap (s : Store) (key oldValue newValue : String) : SwapResult :=
  match s.get key with
  | none =>
      -- Get returned ErrKeyNotFound
      if oldValue = "" then
        { swapped := true, err := none, store := s.set key newValue }
      else
        { swapped := false, err := none, store := s }
  | some current =>
      if current = oldValue then
        { swapped := true, err := none, store := s.set key newValue }
      else
        { swapped := false, err := none, store := s }

end AtomicStorage

/-- **C10.** Atomic-layer `CompareAndSwap` on a missing key: when `key` is
absent, the call with `oldValue = ""` succeeds (no error) and creates the key
with `newValue`; with any non-empty `oldValue` it returns `false` with a `nil`
error and leaves the store unchanged. -/
theorem atomic_compareAndSwap_missing_key (s : Store) (key oldValue newValue : String)
    (habs : s.get key = none) :
    (oldValue = "" →
      AtomicStorage.CompareAndSwap s key oldValue newValue =
        { swapped := true, err := none, store := s.set key newValue } ∧
      (s.set key newValue).get key = some newValue) ∧
    (oldValue ≠ "" →
      AtomicStorage.CompareAndSwap s key oldValue newValue =
        { swapped := false, err := none, store := s }) := by
  constructor
  · intro hold
    subst hold
    simp [AtomicStorage.CompareAndSwap, habs]
  · intro hold
    simp [AtomicStorage.CompareAndSwap, habs, hold]

/-- Witness for C10 at a concrete input: the empty store, key `"k"`. -/
theorem atomic_compareAndSwap_missing_key_witness :
    (Store.empty.get "k" = none) ∧
    AtomicStorage.CompareAndSwap Store.empty "k" "" "v1" =
      { swapped := true, err := none, store := Store.empty.set "k" "v1" } ∧
    AtomicStorage.CompareAndSwap Store.empty "k" "old" "v1" =
      { swapped := false, err := none, store := Store.empty } := by
  refine ⟨rfl, ?_, ?_⟩
  · exact ((atomic_compareAndSwap_missing_key Store.empty "k" "" "v1" rfl).1 rfl).1
  · exact (atomic_compareAndSwap_missing_key Store.empty "k" "old" "v1" rfl).2 (by decide)

/-! ## CAS layer (`storage/cas.go`)

`CASStorage` wraps a store and keeps a per-key version map
(`map[string]int64`, nanosecond timestamps of the last successful mutation;
a missing entry reads as `0`).  `time.Now().UnixNano()` is passed in as the
`now` parameter.  The inner store is the in-memory map, whose `Get` only
fails with `ErrKeyNotFound` (modelled by `Option`) and whose `Set` never
fails, so the Go code's early `return nil, err` paths are dead and every
branch below produces an `Except.ok`. -/

namespace CASStorage

/-- The `CASStorage` state: wrapped store plus `versionMap`. -/
structure CASState where
  store : Store
  versions : List (String × Int)
  deriving Repr, DecidableEq

/-- Fresh `NewCASStorage` over an inner store. -/
def CASState.init (base : Store) : CASState := ⟨base, []⟩

/-- `versionMap[key]` — Go map indexing with zero default. -/
def CASState.version (st : CASState) (k : String) : Int :=
  (lookupKV st.versions k).getD 0

/-- Overwrite a binding of the version map. -/
def setVersion (l : List (String × Int)) (k : String) (ver : Int) : List (String × Int) :=
  (k, ver) :: l.filter (fun p => p.1 ≠ k)

/-- `delete(versionMap, key)`. -/
def delVersion (l : List (String × Int)) (k : String) : List (String × Int) :=
  l.filter (fun p => p.1 ≠ k)

/-- Result struct `CASResult{Success, Version, CurrentValue}`. -/
structure CASResult where
  success : Bool
  version : Int
  currentValue : String
  deriving Repr, DecidableEq

/-- `CASStorage.Set`: stamps a fresh version, then sets in the inner store. -/
def Set (st : CASState) (k v : String) (now : Int) : CASState :=
  { store := st.store.set k v, versions := setVersion st.versions k now }

/-- `CASStorage.Delete`: drops the version entry and deletes from the inner
store. -/
def Delete (st : CASState) (k : String) : CASState :=
  { store := st.store.del k, versions := delVersion st.versions k }

/-- `CASStorage.CompareAndSet` from `storage/cas.go` lines 53-104.  `now` is
the `time.Now().UnixNano()` used as the fresh version on success. -/
def CompareAndSet (st : CASState) (key expectedValue newValue : String)
    (expectedVersion now : Int) : Except String CASResult × CASState :=
  let currentVersion := st.version key
  match st.store.get key with
  | none =>
      -- Get returned ErrKeyNotFound: key doesn't exist
      if expectedValue ≠ "" then
        (.ok { success := false, version := currentVersion, currentValue := "" }, st)
      else
        -- Proceed with creation (note: the version check is skipped here)
        (.ok { success := true, version := now, currentValue := "" },
         { store := st.store.set key newValue, versions := setVersion st.versions key now })
  | some currentValue =>
      -- Key exists, check conditions
      if currentValue ≠ expectedValue then
        (.ok { success := false, version := currentVersion, currentValue := currentValue }, st)
      else if expectedVersion ≠ 0 ∧ currentVersion ≠ expectedVersion then
        (.ok { success := false, version := currentVersion, currentValue := currentValue }, st)
      else
        (.ok { success := true, version := now, currentValue := "" },
         { store := st.store.set key newValue, versions := setVersion st.versions key now })

/-- Decimal digits of a natural number (fuel-based so that the kernel can
evaluate it; the fuel `n + 1` always suffices). -/
def natToDigits : Nat → Nat → List Char
  | 0, _ => []
  | fuel + 1, n =>
    if n < 10 then [Char.ofNat (48 + n)]
    else natToDigits fuel (n / 10) ++ [Char.ofNat (48 + n % 10)]

/-- `fmt.Sprintf("%d", i)` — decimal rendering of a signed integer. -/
def intToString (i : Int) : String :=
  match i with
  | .ofNat n => ⟨natToDigits (n + 1) n⟩
  | .negSucc n => "-" ++ ⟨natToDigits (n + 2) (n + 1)⟩

/-- Accumulate decimal digits; any non-digit character rejects the input
(`fmt.Sscanf` matched values are produced by `intToString`, which emits
digits only). -/
def digitsToNat (acc : Nat) : List Char → Option Nat
  | [] => some acc
  | c :: rest =>
    if 48 ≤ c.toNat ∧ c.toNat ≤ 57 then digitsToNat (acc * 10 + (c.toNat - 48)) rest
    else none

/-- `fmt.Sscanf`'s `%d`: an optionally signed decimal integer. -/
def parseDecimalInt : List Char → Option Int
  | [] => none
  | '-' :: rest =>
    match rest with
    | [] => none
    | _ => (digitsToNat 0 rest).map (fun n => -(n : Int))
  | l => (digitsToNat 0 l).map (fun n => (n : Int))

/-- `fmt.Sscanf(value, "locked:%d", &expiry)`: extract the embedded expiry of
a lock value; a value that does not parse leaves the output at `0` (the Go
variable's zero value). -/
def parseLockExpiry (s : String) : Int :=
  if "locked:".data.isPrefixOf s.data then
    match parseDecimalInt (s.data.drop 7) with
    | some n => n
    | none => 0
  else 0

/-- `CASStorage.AcquireLock`: try `CAS(k, "", "locked:<now+ttl>", 0)`; on
failure, reclaim the lock when its embedded expiry is in the past. -/
def AcquireLock (st : CASState) (lockKey : String) (timeout now : Int) :
    Bool × CASState :=
  let lockValue := "locked:" ++ intToString (now + timeout)
  let r1 := CompareAndSet st lockKey "" lockValue 0 now
  match r1.1 with
  | .error _ => (false, r1.2)
  | .ok res =>
    if res.success then (true, r1.2)
    else
      match r1.2.store.get lockKey with
      | none => (false, r1.2)     -- Get failed: return (false, err)
      | some currentValue =>
        let existingExpiry := parseLockExpiry currentValue
        if now > existingExpiry then
          let r2 := CompareAndSet r1.2 lockKey currentValue lockValue 0 now
          match r2.1 with
          | .error _ => (false, r2.2)
          | .ok res2 => (res2.success, r2.2)
        else (false, r1.2)  -- lock is held by someone else

/-- `CASStorage.ReleaseLock`: `CompareAndSet(lockKey, "", "", 0)`, returning
only the error (always `nil` over the in-memory base). -/
def ReleaseLock (st : CASState) (lockKey : String) (now : Int) :
    Option String × CASState :=
  let r := CompareAndSet st lockKey "" "" 0 now
  match r.1 with
  | .error e => (some e, r.2)
  | .ok _ => (none, r.2)

end CASStorage

/-- **C4 (counterexample).** The claim "CompareAndSet succeeds iff the current
value equals `expected` AND (`expectedVersion = 0` OR current version equals
`expectedVersion`)" fails on a missing key: with expected `""` and
`expectedVersion = 5`, the current version is `0 ≠ 5` and the claim predicts
failure, yet the code succeeds — the version precondition is never checked on
the creation path. -/
theorem cas_version_check_skipped_on_create :
    (CASStorage.CompareAndSet (CASStorage.CASState.init Store.empty) "k" "" "v" 5 100).1 =
      .ok { success := true, version := 100, currentValue := "" } ∧
    ¬ ((5 : Int) = 0 ∨ (CASStorage.CASState.init Store.empty).version "k" = 5) := by
  constructor
  · rfl
  · decide


@[simp] theorem lookupKV_setVersion_self (l : List (String × Int)) (k : String) (ver : Int) :
    lookupKV (CASStorage.setVersion l k ver) k = some ver := by
  simp [CASStorage.setVersion, lookupKV]

/-- **C4 (amended).** `CompareAndSet(k, expected, new, expectedVersion)`
returns a `CASResult` (never an error over the in-memory base), and it
succeeds iff either the key is missing and `expected = ""` — the version
precondition is skipped on this creation path — or the key is present with
value `expected` and (`expectedVersion = 0` or the current version equals
`expectedVersion`).  A failed precondition is reported as `success = false`
carrying the current value and version, and leaves the state unchanged; on
success the value becomes `new` under the fresh version `now`. -/
theorem cas_compareAndSet_characterization (st : CASStorage.CASState)
    (key expectedValue newValue : String) (expectedVersion now : Int) :
    ∃ res : CASStorage.CASResult,
      (CASStorage.CompareAndSet st key expectedValue newValue expectedVersion now).1 =
        Except.ok res ∧
      (res.success = true ↔
        (match st.store.get key with
         | none => expectedValue = ""
         | some cur => cur = expectedValue ∧
             (expectedVersion = 0 ∨ st.version key = expectedVersion))) ∧
      (res.success = true →
        (CASStorage.CompareAndSet st key expectedValue newValue expectedVersion now).2.store.get key =
            some newValue ∧
        (CASStorage.CompareAndSet st key expectedValue newValue expectedVersion now).2.version key =
            now ∧
        res.version = now) ∧
      (res.success = false →
        (CASStorage.CompareAndSet st key expectedValue newValue expectedVersion now).2 = st ∧
        res.version = st.version key ∧
        res.currentValue = (st.store.get key).getD "") := by
  cases hget : st.store.get key with
  | none =>
    by_cases hexp : expectedValue = ""
    · have hcall : CASStorage.CompareAndSet st key expectedValue newValue expectedVersion now =
          (Except.ok { success := true, version := now, currentValue := "" },
           { store := st.store.set key newValue,
             versions := CASStorage.setVersion st.versions key now }) := by
        simp only [CASStorage.CompareAndSet, hget]
        rw [if_neg (not_not_intro hexp)]
      refine ⟨{ success := true, version := now, currentValue := "" }, ?_, ?_, ?_, ?_⟩
      · rw [hcall]
      · simp [hget, hexp]
      · intro _
        rw [hcall]
        exact ⟨by simp, by simp [CASStorage.CASState.version], rfl⟩
      · intro h; cases h
    · have hcall : CASStorage.CompareAndSet st key expectedValue newValue expectedVersion now =
          (Except.ok { success := false, version := st.version key, currentValue := "" }, st) := by
        simp only [CASStorage.CompareAndSet, hget]
        rw [if_pos hexp]
      refine ⟨{ success := false, version := st.version key, currentValue := "" }, ?_, ?_, ?_, ?_⟩
      · rw [hcall]
      · simp [hget, hexp]
      · intro h; cases h
      · intro _
        rw [hcall]
        exact ⟨rfl, rfl, by simp [hget]⟩
  | some cur =>
    by_cases hval : cur = expectedValue
    · by_cases hver : expectedVersion ≠ 0 ∧ st.version key ≠ expectedVersion
      · have hcall : CASStorage.CompareAndSet st key expectedValue newValue expectedVersion now =
            (Except.ok { success := false, version := st.version key, currentValue := cur }, st) := by
          simp only [CASStorage.CompareAndSet, hget]
          rw [if_neg (not_not_intro hval), if_pos hver]
        refine ⟨{ success := false, version := st.version key, currentValue := cur }, ?_, ?_, ?_, ?_⟩
        · rw [hcall]
        · simp only [hget]
          constructor
          · intro h; cases h
          · rintro ⟨-, h | h⟩
            · exact absurd h hver.1
            · exact absurd h hver.2
        · intro h; cases h
        · intro _
          rw [hcall]
          exact ⟨rfl, rfl, by simp [hget]⟩
      · have hcall : CASStorage.CompareAndSet st key expectedValue newValue expectedVersion now =
            (Except.ok { success := true, version := now, currentValue := "" },
             { store := st.store.set key newValue,
               versions := CASStorage.setVersion st.versions key now }) := by
          simp only [CASStorage.CompareAndSet, hget]
          rw [if_neg (not_not_intro hval), if_neg hver]
        refine ⟨{ success := true, version := now, currentValue := "" }, ?_, ?_, ?_, ?_⟩
        · rw [hcall]
        · simp only [hget]
          constructor
          · intro _
            refine ⟨hval, ?_⟩
            rcases not_and_or.mp hver with h | h
            · exact Or.inl (not_not.mp h)
            · exact Or.inr (not_not.mp h)
          · intro _; trivial
        · intro _
          rw [hcall]
          exact ⟨by simp, by simp [CASStorage.CASState.version], rfl⟩
        · intro h; cases h
    · have hcall : CASStorage.CompareAndSet st key expectedValue newValue expectedVersion now =
          (Except.ok { success := false, version := st.version key, currentValue := cur }, st) := by
        simp only [CASStorage.CompareAndSet, hget]
        rw [if_pos hval]
      refine ⟨{ success := false, version := st.version key, currentValue := cur }, ?_, ?_, ?_, ?_⟩
      · rw [hcall]
      · simp only [hget]
        constructor
        · intro h; cases h
        · rintro ⟨h, -⟩; exact absurd h hval
      · intro h; cases h
      · intro _
        rw [hcall]
        exact ⟨rfl, rfl, by simp [hget]⟩

/-- **C3.** `ReleaseLock` does *not* clear the lock key.  It is implemented as
`CompareAndSet(lockKey, "", "", 0)`, which fails (leaving the state untouched)
whenever the key holds a lock value, because the stored `locked:<expiry>`
differs from the expected `""`.  Concretely: acquire the lock `"L"` at time
100 with TTL 1000 (stored value `locked:1100`), release it at time 200 — the
release reports no error, yet the key still holds `locked:1100` and a
subsequent `AcquireLock` at time 300 (before expiry) returns `false`.  The
spec's "`releaseLock(k)` clears the key" describes the evident intent; the
implementation never deletes the key. -/
theorem releaseLock_leaves_lock_held :
    (CASStorage.AcquireLock (CASStorage.CASState.init Store.empty) "L" 1000 100).1 = true ∧
    (CASStorage.ReleaseLock
        (CASStorage.AcquireLock (CASStorage.CASState.init Store.empty) "L" 1000 100).2
        "L" 200).1 = none ∧
    (CASStorage.ReleaseLock
        (CASStorage.AcquireLock (CASStorage.CASState.init Store.empty) "L" 1000 100).2
        "L" 200).2.store.get "L" = some "locked:1100" ∧
    (CASStorage.AcquireLock
        (CASStorage.ReleaseLock
          (CASStorage.AcquireLock (CASStorage.CASState.init Store.empty) "L" 1000 100).2
          "L" 200).2
        "L" 1000 300).1 = false := by
  refine ⟨rfl, rfl, rfl, by decide⟩

/-! ## Vector clocks (`storage/vector_clock.go`)

`VectorClock = map[string]int64`, modelled as an association list with
pairwise-distinct keys (`nodupKeys`), which is every Go map's shape.  The two
loops of `VectorClock.Compare` each fold flag updates over the map's entries;
since the flags are only ever OR-ed, iteration order is irrelevant and
`List.any` renders them faithfully. -/

abbrev VectorClock := List (String × Int)

/-- A Go map has at most one entry per key. -/
def nodupKeys (vc : VectorClock) : Prop := (vc.map Prod.fst).Nodup

instance (vc : VectorClock) : Decidable (nodupKeys vc) := by
  unfold nodupKeys
  infer_instance

/-- Contributions to `vcGreater` (both loops of `Compare` only set it in the
first loop): a shared key with a strictly larger counter, or a key absent on
the other side with a positive counter. -/
def vcGreaterFlag (vc other : VectorClock) : Bool :=
  vc.any fun p =>
    match lookupKV other p.1 with
    | some t2 => decide (p.2 > t2)
    | none => decide (p.2 > 0)

/-- Contributions to `otherGreater`: a shared key with a strictly smaller
counter (first loop), or a key only in `other` with a positive counter
(second loop). -/
def otherGreaterFlag (vc other : VectorClock) : Bool :=
  (vc.any fun p =>
    match lookupKV other p.1 with
    | some t2 => decide (p.2 < t2)
    | none => false) ||
  (other.any fun p => (lookupKV vc p.1).isNone && decide (p.2 > 0))

/-- `VectorClock.Compare` from `storage/vector_clock.go` lines 32-62. -/
def VectorClock.Compare (vc other : VectorClock) : String :=
  let vcGreater := vcGreaterFlag vc other
  let otherGreater := otherGreaterFlag vc other
  if vcGreater && !otherGreater then "greater"
  else if !vcGreater && otherGreater then "less"
  else if vcGreater && otherGreater then "concurrent"
  else "equal"

/-- `VersionedValue{Value, VectorClock, Timestamp}`. -/
structure VersionedValue where
  value : String
  vectorClock : VectorClock
  timestamp : Int
  deriving Repr, DecidableEq

/-- `ConflictResolver.ResolveConflict` from `storage/vector_clock.go` lines
73-99 (the Go `switch` on the comparison string). -/
def ResolveConflict (current incoming : VersionedValue) : VersionedValue :=
  let comparison := VectorClock.Compare current.vectorClock incoming.vectorClock
  if comparison = "greater" then current
  else if comparison = "less" then incoming
  else if comparison = "equal" then
    -- if the vectors are equal, select by timestamp
    if current.timestamp ≥ incoming.timestamp then current else incoming
  else if comparison = "concurrent" then
    -- concurrent write conflict: LWW
    if current.timestamp ≥ incoming.timestamp then current else incoming
  else incoming

theorem mem_of_lookupKV_eq_some {β : Type} {l : List (String × β)} {k : String} {v : β}
    (h : lookupKV l k = some v) : (k, v) ∈ l := by
  induction l with
  | nil => cases h
  | cons hd tl ih =>
    obtain ⟨k', v'⟩ := hd
    by_cases hk : k' = k
    · subst hk
      simp [lookupKV] at h
      simp [h]
    · simp [lookupKV, hk] at h
      exact List.mem_cons_of_mem _ (ih h)

theorem lookupKV_eq_some_of_mem {β : Type} {l : List (String × β)}
    (hnd : (l.map Prod.fst).Nodup) {k : String} {v : β}
    (hmem : (k, v) ∈ l) : lookupKV l k = some v := by
  induction l with
  | nil => cases hmem
  | cons hd tl ih =>
    obtain ⟨k', v'⟩ := hd
    simp only [List.map_cons, List.nodup_cons] at hnd
    rcases List.mem_cons.mp hmem with heq | hmem'
    · obtain ⟨rfl, rfl⟩ := Prod.mk.injEq .. ▸ heq
      simp_all [lookupKV]
    · have hk : k' ≠ k := by
        rintro rfl
        exact hnd.1 (List.mem_map.mpr ⟨(k', v), hmem', rfl⟩)
      simp [lookupKV, hk]
      exact ih hnd.2 hmem'

theorem vcGreaterFlag_eq_true_iff (a b : VectorClock) :
    vcGreaterFlag a b = true ↔
      ∃ n t, (n, t) ∈ a ∧
        ((∃ t2, lookupKV b n = some t2 ∧ t2 < t) ∨ (lookupKV b n = none ∧ 0 < t)) := by
  unfold vcGreaterFlag
  rw [List.any_eq_true]
  constructor
  · rintro ⟨⟨n, t⟩, hmem, hp⟩
    refine ⟨n, t, hmem, ?_⟩
    cases hlb : lookupKV b n with
    | none =>
      simp only [hlb] at hp
      exact Or.inr ⟨rfl, of_decide_eq_true hp⟩
    | some t2 =>
      simp only [hlb] at hp
      exact Or.inl ⟨t2, rfl, of_decide_eq_true hp⟩
  · rintro ⟨n, t, hmem, h⟩
    refine ⟨(n, t), hmem, ?_⟩
    rcases h with ⟨t2, hlb, hlt⟩ | ⟨hlb, hpos⟩
    · simp only [hlb]
      exact decide_eq_true hlt
    · simp only [hlb]
      exact decide_eq_true hpos

theorem otherGreaterFlag_eq_true_iff (a b : VectorClock) :
    otherGreaterFlag a b = true ↔
      ((∃ n t, (n, t) ∈ a ∧ ∃ t2, lookupKV b n = some t2 ∧ t < t2) ∨
       (∃ n t, (n, t) ∈ b ∧ lookupKV a n = none ∧ 0 < t)) := by
  unfold otherGreaterFlag
  rw [Bool.or_eq_true, List.any_eq_true, List.any_eq_true]
  constructor
  · rintro (⟨⟨n, t⟩, hmem, hp⟩ | ⟨⟨n, t⟩, hmem, hp⟩)
    · left
      cases hlb : lookupKV b n with
      | none => simp [hlb] at hp
      | some t2 =>
        simp only [hlb] at hp
        exact ⟨n, t, hmem, t2, hlb, of_decide_eq_true hp⟩
    · right
      rw [Bool.and_eq_true, Option.isNone_iff_eq_none] at hp
      exact ⟨n, t, hmem, hp.1, of_decide_eq_true hp.2⟩
  · rintro (⟨n, t, hmem, t2, hlb, hlt⟩ | ⟨n, t, hmem, hla, hpos⟩)
    · left
      refine ⟨(n, t), hmem, ?_⟩
      simp only [hlb]
      exact decide_eq_true hlt
    · right
      refine ⟨(n, t), hmem, ?_⟩
      rw [Bool.and_eq_true, Option.isNone_iff_eq_none]
      exact ⟨hla, decide_eq_true hpos⟩

/-- The `vcGreater` flag computed by `Compare(a, b)` coincides with the
`otherGreater` flag computed by `Compare(b, a)`. -/
theorem flag_symm (a b : VectorClock) (ha : nodupKeys a) (hb : nodupKeys b) :
    vcGreaterFlag a b = otherGreaterFlag b a := by
  have hiff : vcGreaterFlag a b = true ↔ otherGreaterFlag b a = true := by
    rw [vcGreaterFlag_eq_true_iff, otherGreaterFlag_eq_true_iff]
    constructor
    · rintro ⟨n, t, hmem, ⟨t2, hlb, hlt⟩ | ⟨hlb, hpos⟩⟩
      · exact Or.inl ⟨n, t2, mem_of_lookupKV_eq_some hlb, t,
          lookupKV_eq_some_of_mem ha hmem, hlt⟩
      · exact Or.inr ⟨n, t, hmem, hlb, hpos⟩
    · rintro (⟨n, s, hmemb, t, hla, hst⟩ | ⟨n, t, hmem, hlb, hpos⟩)
      · exact ⟨n, t, mem_of_lookupKV_eq_some hla, Or.inl ⟨s,
          lookupKV_eq_some_of_mem hb hmemb, hst⟩⟩
      · exact ⟨n, t, hmem, Or.inr ⟨hlb, hpos⟩⟩
  cases hx : vcGreaterFlag a b <;> cases hy : otherGreaterFlag b a <;> simp_all

/-- **C2 (counterexample).** Conflict resolution is not commutative in
`.Value`: for two versioned values with equal (empty) vector clocks, *equal*
timestamps and different values, the `equal` branch's tiebreak
`current.Timestamp >= incoming.Timestamp` prefers whichever argument is
`current`, so the two orders return different values. -/
theorem resolveConflict_not_commutative :
    (ResolveConflict ⟨"x", [], 5⟩ ⟨"y", [], 5⟩).value = "x" ∧
    (ResolveConflict ⟨"y", [], 5⟩ ⟨"x", [], 5⟩).value = "y" ∧
    (ResolveConflict ⟨"x", [], 5⟩ ⟨"y", [], 5⟩).value ≠
      (ResolveConflict ⟨"y", [], 5⟩ ⟨"x", [], 5⟩).value := by
  refine ⟨rfl, rfl, by decide⟩

/-- Case table of `ResolveConflict` in terms of the two comparison flags. -/
theorem resolve_cases (cur inc : VersionedValue) :
    ResolveConflict cur inc =
      (if vcGreaterFlag cur.vectorClock inc.vectorClock then
         (if otherGreaterFlag cur.vectorClock inc.vectorClock then
            (if cur.timestamp ≥ inc.timestamp then cur else inc)
          else cur)
       else
         (if otherGreaterFlag cur.vectorClock inc.vectorClock then inc
          else (if cur.timestamp ≥ inc.timestamp then cur else inc))) := by
  unfold ResolveConflict VectorClock.Compare
  cases vcGreaterFlag cur.vectorClock inc.vectorClock <;>
    cases otherGreaterFlag cur.vectorClock inc.vectorClock <;> rfl

/-- **C2 (amended).** `ResolveConflict` is commutative in `.Value` whenever
the two timestamps differ (vector clocks being Go maps, their key lists are
duplicate-free).  When the clocks compare `equal` or `concurrent` and the
timestamps tie, the resolver keeps `current`, so only the equal-timestamp
diagonal can break commutativity. -/
theorem resolveConflict_commutative_of_timestamp_ne (a b : VersionedValue)
    (ha : nodupKeys a.vectorClock) (hb : nodupKeys b.vectorClock)
    (hts : a.timestamp ≠ b.timestamp) :
    (ResolveConflict a b).value = (ResolveConflict b a).value := by
  have h1 : vcGreaterFlag a.vectorClock b.vectorClock =
      otherGreaterFlag b.vectorClock a.vectorClock := flag_symm _ _ ha hb
  have h2 : otherGreaterFlag a.vectorClock b.vectorClock =
      vcGreaterFlag b.vectorClock a.vectorClock := (flag_symm _ _ hb ha).symm
  have hLWW : (if a.timestamp ≥ b.timestamp then a else b).value =
      (if b.timestamp ≥ a.timestamp then b else a).value := by
    rcases lt_or_gt_of_ne hts with h | h
    · rw [if_neg (by omega), if_pos (by omega)]
    · rw [if_pos (by omega), if_neg (by omega)]
  rw [resolve_cases a b, resolve_cases b a, ← h1, ← h2]
  cases vcGreaterFlag a.vectorClock b.vectorClock <;>
    cases otherGreaterFlag a.vectorClock b.vectorClock <;>
    first
      | rfl
      | exact hLWW

/-- Witness for C2 (amended) at concrete values: clock `{n1 ↦ 1}` versus the
empty clock, timestamps 5 and 7. -/
theorem resolveConflict_commutative_witness :
    nodupKeys ([("n1", 1)] : VectorClock) ∧ nodupKeys ([] : VectorClock) ∧
    (5 : Int) ≠ 7 ∧
    (ResolveConflict ⟨"x", [("n1", 1)], 5⟩ ⟨"y", [], 7⟩).value =
      (ResolveConflict ⟨"y", [], 7⟩ ⟨"x", [("n1", 1)], 5⟩).value :=
  ⟨by decide, by decide, by decide,
    resolveConflict_commutative_of_timestamp_ne ⟨"x", [("n1", 1)], 5⟩ ⟨"y", [], 7⟩
      (by decide) (by decide) (by decide)⟩

/-! ## Compression layer (`CompressedStorage`)

Go strings are byte slices; the compression layer manipulates raw bytes, so
its values are modelled as `List Char` (one `Char` per byte).  The actual
GZIP/Zlib codecs live in the Go standard library, outside this repository;
they enter the model as the `enc`/`dec` fields of `Codec` together with the
magic prefix that `getCompressionPrefix` returns (`1F 8B` for GZIP, `78` for
Zlib).  `dec` returns `none` where `gzip.NewReader`/`io.ReadAll` would fail;
in particular both real codecs fail on empty input, which `modelGzip` below
mirrors. -/

abbrev Bytes := List Char

/-- Store with byte-string values (the layer under `CompressedStorage`). -/
structure CStore where
  data : List (String × Bytes)
  deriving Repr, DecidableEq

def CStore.empty : CStore := ⟨[]⟩

def CStore.get (s : CStore) (k : String) : Option Bytes :=
  lookupKV s.data k

def CStore.set (s : CStore) (k : String) (v : Bytes) : CStore :=
  ⟨(k, v) :: s.data.filter (fun p => p.1 ≠ k)⟩

@[simp] theorem CStore.set_get_self (s : CStore) (k : String) (v : Bytes) :
    (s.set k v).get k = some v := by
  simp [set, get, lookupKV]

/-- A compression codec: the magic prefix plus the standard library's
compress and decompress routines. -/
structure Codec where
  magic : Bytes
  enc : Bytes → Bytes
  dec : Bytes → Option Bytes

/-- `CompressedStorage.isCompressed`: `strings.HasPrefix(data, prefix)`. -/
def isCompressed (c : Codec) (data : Bytes) : Bool :=
  c.magic.isPrefixOf data

/-- `CompressedStorage.compress`: codec output with the magic prefix
prepended. -/
def compress (c : Codec) (data : Bytes) : Bytes :=
  c.magic ++ c.enc data

/-- `CompressedStorage.decompress`: strip the prefix, then run the codec's
reader. -/
def decompress (c : Codec) (data : Bytes) : Option Bytes :=
  c.dec (data.drop c.magic.length)

/-- `CompressedStorage.Set`: compress when the value exceeds the threshold,
store verbatim otherwise. -/
def CompressedStorage.Set (c : Codec) (threshold : Nat) (s : CStore) (k : String)
    (v : Bytes) : CStore :=
  let value := if v.length > threshold then compress c v else v
  s.set k value

/-- What `Get` can produce: the inner store's `ErrKeyNotFound`, or a
decompression failure wrapped by `fmt.Errorf`. -/
inductive CGetErr where
  | keyNotFound
  | decompressFailed
  deriving Repr, DecidableEq

/-- `CompressedStorage.Get`: fetch, then decompress iff the stored bytes
carry the magic prefix. -/
def CompressedStorage.Get (c : Codec) (s : CStore) (k : String) : Except CGetErr Bytes :=
  match s.get k with
  | none => .error .keyNotFound
  | some value =>
    if isCompressed c value then
      match decompress c value with
      | some d => .ok d
      | none => .error .decompressFailed
    else .ok value

/-- A stand-in for the GZIP codec that shares the properties the claim
exercises: decoding inverts encoding, and decoding the empty byte string
fails (as `gzip.NewReader` does on empty input).  The magic prefix is GZIP's
`1F 8B`. -/
def modelGzip : Codec where
  magic := [Char.ofNat 0x1F, Char.ofNat 0x8B]
  enc := fun v => 'E' :: v
  dec := fun v =>
    match v with
    | 'E' :: rest => some rest
    | _ => none

/-- **C1 (counterexample).** The round-trip `get(set(k,v)) == v` fails for a
value that is below the compression threshold but happens to begin with the
codec's magic prefix: the two magic bytes `1F 8B` are stored verbatim, `Get`
misdetects them as compressed, strips the prefix and hands the empty rest to
the codec, which fails — `Get` returns a decompression error instead of the
value.  (Any codec whose decoder rejects empty input fails here; real GZIP
and Zlib both do.) -/
theorem compressed_roundtrip_fails_on_magic_value :
    modelGzip.dec (modelGzip.enc modelGzip.magic) = some modelGzip.magic ∧
    CompressedStorage.Get modelGzip
        (CompressedStorage.Set modelGzip 10 CStore.empty "k" modelGzip.magic) "k" =
      .error .decompressFailed := by
  constructor
  · rfl
  · rfl

/-- **C1 (amended).** For any codec whose decoder inverts its encoder, the
round-trip holds for every value that is either longer than the threshold
(and hence stored compressed) or does not begin with the magic prefix; a
below-threshold value beginning with the magic prefix is misdetected on
`Get`. -/
theorem compressed_roundtrip (c : Codec) (threshold : Nat)
    (hround : ∀ v, c.dec (c.enc v) = some v)
    (s : CStore) (k : String) (v : Bytes)
    (hv : threshold < v.length ∨ isCompressed c v = false) :
    CompressedStorage.Get c (CompressedStorage.Set c threshold s k v) k = .ok v := by
  by_cases hlen : threshold < v.length
  · have hstored : (CompressedStorage.Set c threshold s k v).get k = some (compress c v) := by
      simp [CompressedStorage.Set, hlen]
    have hpref : isCompressed c (compress c v) = true := by
      unfold isCompressed compress
      rw [List.isPrefixOf_iff_prefix]
      exact ⟨c.enc v, rfl⟩
    unfold CompressedStorage.Get
    rw [hstored]
    simp only [hpref, if_true]
    unfold decompress compress
    rw [List.drop_left, hround]
  · have hnc : isCompressed c v = false := by
      rcases hv with h | h
      · exact absurd h hlen
      · exact h
    have hstored : (CompressedStorage.Set c threshold s k v).get k = some v := by
      simp [CompressedStorage.Set, hlen]
    unfold CompressedStorage.Get
    rw [hstored]
    simp [hnc]

/-- Witness for C1 (amended): both disjuncts at concrete inputs — a long
value `"abc"` with threshold 2 (compressed path) and a short unprefixed
value `"a"` (verbatim path). -/
theorem compressed_roundtrip_witness :
    ((2 : Nat) < (['a', 'b', 'c'] : Bytes).length ∨
      isCompressed modelGzip ['a', 'b', 'c'] = false) ∧
    CompressedStorage.Get modelGzip
        (CompressedStorage.Set modelGzip 2 CStore.empty "k" ['a', 'b', 'c']) "k" =
      .ok ['a', 'b', 'c'] ∧
    ((2 : Nat) < (['a'] : Bytes).length ∨ isCompressed modelGzip ['a'] = false) ∧
    CompressedStorage.Get modelGzip
        (CompressedStorage.Set modelGzip 2 CStore.empty "q" ['a']) "q" =
      .ok ['a'] := by
  refine ⟨Or.inl (by decide), ?_, Or.inr (by decide), ?_⟩
  · exact compressed_roundtrip modelGzip 2 (fun v => rfl) CStore.empty "k" ['a', 'b', 'c']
      (Or.inl (by decide))
  · exact compressed_roundtrip modelGzip 2 (fun v => rfl) CStore.empty "q" ['a']
      (Or.inr (by decide))

/-! ## Replication (`replication/replication.go`)

Peer HTTP calls are modelled by a function `deliver : String → Bool` telling
whether `replicateSetToNode` (POST `/internal/set`) succeeds for a given
peer.  `NewReplicator` derives the quorum config for `len(nodes) > 1`:
`writeQuorum = len(nodes)/2 + 1`.  The consistency-manager bookkeeping on
success (`RecordWrite`) does not affect the quantities below and is
elided. -/

namespace Replication

/-- `WriteQuorum: (len(nodes) / 2) + 1` from `NewReplicator`. -/
def writeQuorumFor (n : Nat) : Nat := n / 2 + 1

/-- Observable outcome of the fan-out loop of `replicateSetWithQuorum`:
the success counter, the peers that stored the value, and the peers for
which a hint was enqueued. -/
structure QuorumRun where
  successful : Nat
  stored : List String
  hints : List String
  deriving Repr, DecidableEq

/-- The `for _, node := range r.nodes` loop: try each peer in order, count
successes, enqueue a hint on failure, and break as soon as
`successful >= writeQuorum` (the check runs after each iteration). -/
def quorumLoop (deliver : String → Bool) (wq : Nat) :
    List String → Nat → QuorumRun
  | [], succ => ⟨succ, [], []⟩
  | node :: rest, succ =>
    if deliver node then
      let s := succ + 1
      if s ≥ wq then ⟨s, [node], []⟩
      else
        let r := quorumLoop deliver wq rest s
        ⟨r.successful, node :: r.stored, r.hints⟩
    else
      if succ ≥ wq then ⟨succ, [], [node]⟩
      else
        let r := quorumLoop deliver wq rest succ
        ⟨r.successful, r.stored, node :: r.hints⟩

/-- `Replicator.replicateSetWithQuorum`: run the loop, then fail with
"write quorum not reached" when the counter falls short. -/
def replicateSetWithQuorum (nodes : List String) (deliver : String → Bool)
    (wq : Nat) : Option String × QuorumRun :=
  let r := quorumLoop deliver wq nodes 0
  if r.successful < wq then (some "write quorum not reached", r) else (none, r)

/-- Observable outcome of `Replicator.ReplicateDelete`: the error returned
to the caller, the peers the dispatch loop attempted, and the failures that
the background collector goroutine merely logs. -/
structure DeleteRun where
  err : Option String
  attempted : List String
  failures : List String
  deriving Repr, DecidableEq

/-- `Replicator.ReplicateDelete` (lines 262-345): snapshot the peers, spawn
a DELETE request per peer (the `replicated` counter is never incremented in
this loop, so its break guard only fires for `replicaCount = 0`), then
return `nil` immediately; the collector goroutine counts acknowledgments
and logs warnings asynchronously. -/
def ReplicateDelete (nodes : List String) (replicaCount : Nat)
    (deliver : String → Bool) : DeleteRun :=
  if nodes = [] then ⟨none, [], []⟩
  else
    let attempted := if replicaCount = 0 then [] else nodes
    let failures := attempted.filter (fun n => !(deliver n))
    ⟨none, attempted, failures⟩

end Replication

/-- **C5 (counterexample).** Scenario S3 as claimed is false on the code:
with 3 peers all online and `writeQuorum = 3/2 + 1 = 2`, the fan-out loop
breaks as soon as the second peer acknowledges, so the third peer is never
contacted and **no hint is enqueued** — hints are only stored for peers whose
delivery attempt fails.  The write does succeed and exactly 2 peers store
the value. -/
theorem quorum_write_s3_no_hint_for_third_peer :
    (Replication.replicateSetWithQuorum ["n1", "n2", "n3"] (fun _ => true)
        (Replication.writeQuorumFor 3)).2.hints = [] ∧
    "n3" ∉ (Replication.replicateSetWithQuorum ["n1", "n2", "n3"] (fun _ => true)
        (Replication.writeQuorumFor 3)).2.stored := by
  decide

/-- **C5 (amended).** Scenario S3 against the code: 3 configured peers all
online, `writeQuorum = ⌊3/2⌋ + 1 = 2`; the replicated set returns success
(`nil` error), exactly the first 2 peers store the value, and the third peer
is skipped entirely — it is neither written to nor hinted (hints are enqueued
only for peers whose replication attempt fails). -/
theorem quorum_write_s3 :
    Replication.writeQuorumFor 3 = 2 ∧
    (Replication.replicateSetWithQuorum ["n1", "n2", "n3"] (fun _ => true)
        (Replication.writeQuorumFor 3)).1 = none ∧
    (Replication.replicateSetWithQuorum ["n1", "n2", "n3"] (fun _ => true)
        (Replication.writeQuorumFor 3)).2.stored = ["n1", "n2"] ∧
    (Replication.replicateSetWithQuorum ["n1", "n2", "n3"] (fun _ => true)
        (Replication.writeQuorumFor 3)).2.hints = [] := by
  refine ⟨rfl, rfl, rfl, rfl⟩

/-- **C8.** Delete replication is fire-and-forget: for every peer list,
replica count and pattern of peer acknowledgments, `ReplicateDelete` returns
`nil` to the caller; per-peer failures end up only in the background
goroutine's log. -/
theorem replicateDelete_fire_and_forget (nodes : List String) (replicaCount : Nat)
    (deliver : String → Bool) :
    (Replication.ReplicateDelete nodes replicaCount deliver).err = none := by
  unfold Replication.ReplicateDelete
  split <;> rfl

/-! ## Write-ahead log (`storage/wal.go`)

`WALStorage.Set`/`Delete` append a `WALEntry` (via `LogSet`/`LogDelete`,
which stamp the current sequence number and then increment it) before the
inner mutation runs.  `WriteAheadLog.Recover` replays the journal in file
order into a base store, applying `Set` for `"SET"` records and `Delete`
for `"DELETE"` records and ignoring their results.  `time.Now()` for the
record timestamps is supplied as `clock`, indexed by sequence number. -/

namespace WAL

/-- A mutation executed through the WAL layer. -/
inductive Op where
  | set (k v : String)
  | del (k : String)
  deriving Repr, DecidableEq

/-- `WALEntry{Operation, Key, Value, Timestamp, Sequence}`; a DELETE record
carries the empty value (`omitempty`). -/
structure WALEntry where
  operation : String
  key : String
  value : String
  timestamp : Int
  sequence : Nat
  deriving Repr, DecidableEq

/-- The live `WALStorage`: wrapped store, journal contents, next sequence. -/
structure WALState where
  store : Store
  log : List WALEntry
  sequence : Nat
  deriving Repr, DecidableEq

/-- A fresh `NewWALStorage` over an empty base with an empty `wal.log`. -/
def init : WALState := ⟨Store.empty, [], 0⟩

/-- One `WALStorage.Set`/`Delete`: append the record, then mutate the inner
store. -/
def step (clock : Nat → Int) (st : WALState) (op : Op) : WALState :=
  match op with
  | .set k v =>
      { store := st.store.set k v,
        log := st.log ++ [⟨"SET", k, v, clock st.sequence, st.sequence⟩],
        sequence := st.sequence + 1 }
  | .del k =>
      { store := st.store.del k,
        log := st.log ++ [⟨"DELETE", k, "", clock st.sequence, st.sequence⟩],
        sequence := st.sequence + 1 }

/-- Execute a sequence of mutations through the WAL layer. -/
def run (clock : Nat → Int) (ops : List Op) (st : WALState) : WALState :=
  ops.foldl (step clock) st

/-- One replayed record inside `Recover`'s loop (`switch entry.Operation`). -/
def applyEntry (s : Store) (e : WALEntry) : Store :=
  if e.operation = "SET" then s.set e.key e.value
  else if e.operation = "DELETE" then s.del e.key
  else s

/-- `WriteAheadLog.Recover`: replay the journal in order into a store. -/
def Recover (log : List WALEntry) (s : Store) : Store :=
  log.foldl applyEntry s

theorem recover_run (ops : List Op) (clock : Nat → Int) (st : WALState) (b : Store)
    (h : Recover st.log b = st.store) :
    Recover (run clock ops st).log b = (run clock ops st).store := by
  induction ops generalizing st with
  | nil => simpa [run, Recover] using h
  | cons op rest ih =>
    show Recover (run clock rest (step clock st op)).log b =
      (run clock rest (step clock st op)).store
    apply ih
    cases op with
    | set k v =>
      unfold Recover step
      rw [List.foldl_append]
      simp only [List.foldl_cons, List.foldl_nil]
      rw [show List.foldl applyEntry b st.log = st.store from h]
      rfl
    | del k =>
      unfold Recover step
      rw [List.foldl_append]
      simp only [List.foldl_cons, List.foldl_nil]
      rw [show List.foldl applyEntry b st.log = st.store from h]
      rfl

theorem run_log_length (ops : List Op) (clock : Nat → Int) (st : WALState) :
    (run clock ops st).log.length = st.log.length + ops.length := by
  induction ops generalizing st with
  | nil => simp [run]
  | cons op rest ih =>
    show (run clock rest (step clock st op)).log.length = _
    rw [ih]
    cases op <;> simp [step] <;> omega

end WAL

/-- **C6.** WAL round-trip: executing any finite sequence of set/delete
operations through a fresh WAL layer appends exactly one record per
operation (the record is in the journal when the mutation returns), and
replaying the journal in order into a fresh empty base store rebuilds
exactly the live store's `(key, value)` map. -/
theorem wal_roundtrip (ops : List WAL.Op) (clock : Nat → Int) :
    WAL.Recover (WAL.run clock ops WAL.init).log Store.empty =
      (WAL.run clock ops WAL.init).store ∧
    (WAL.run clock ops WAL.init).log.length = ops.length := by
  constructor
  · exact WAL.recover_run ops clock WAL.init Store.empty rfl
  · simpa [WAL.init] using WAL.run_log_length ops clock WAL.init

/-! ## Merkle trees (`synchro/merkle_tree.go`)

`hashData` is SHA-1 from the Go standard library; it enters the model as a
function parameter `h : String → String` (hex digest).  Nodes carry a hash
and optional children, exactly as the Go struct with its nilable pointers. -/

inductive MerkleNode where
  | mk (hash : String) (left : Option MerkleNode) (right : Option MerkleNode)
  deriving Repr

def MerkleNode.hash : MerkleNode → String
  | .mk s _ _ => s

def MerkleNode.left : MerkleNode → Option MerkleNode
  | .mk _ l _ => l

def MerkleNode.right : MerkleNode → Option MerkleNode
  | .mk _ _ r => r

structure MerkleTree where
  root : MerkleNode
  leaves : List MerkleNode

structure MerkleDiff where
  key : String
  reason : String
  deriving Repr, DecidableEq

/-- One level-combining pass of `buildTree`'s `for i := 0; i < len(nodes);
i += 2` loop: pair adjacent nodes; an odd trailing node is combined with
itself (`Left` set, `Right` left nil). -/
def pairUp (h : String → String) : List MerkleNode → List MerkleNode
  | [] => []
  | [n] => [.mk (h (n.hash ++ n.hash)) (some n) none]
  | a :: b :: rest => .mk (h (a.hash ++ b.hash)) (some a) (some b) :: pairUp h rest

theorem pairUp_length (h : String → String) :
    ∀ l : List MerkleNode, (pairUp h l).length = (l.length + 1) / 2
  | [] => rfl
  | [_] => by simp [pairUp]
  | _ :: _ :: rest => by
    simp only [pairUp, List.length_cons]
    rw [pairUp_length h rest]
    omega

/-- `buildTree`: combine levels until one node remains.  (`buildTree` is
never called on the empty slice — `NewMerkleTree` special-cases empty key
sets — so the `[]` equation is an arbitrary placeholder.) -/
def buildTree (h : String → String) : List MerkleNode → MerkleNode
  | [] => .mk (h "") none none
  | [n] => n
  | a :: b :: rest => buildTree h (pairUp h (a :: b :: rest))
termination_by l => l.length
decreasing_by
  simp only [pairUp_length, List.length_cons]
  omega

/-- `NewMerkleTree`: sort the keys, hash each into a leaf, build bottom-up;
the empty key set gets the single node `hashData("")`. -/
def NewMerkleTree (h : String → String) (keys : List String) : MerkleTree :=
  if keys = [] then ⟨.mk (h "") none none, []⟩
  else
    let sorted := List.insertionSort (· ≤ ·) keys
    let leaves := sorted.map (fun k => MerkleNode.mk (h k) none none)
    ⟨buildTree h leaves, leaves⟩

/-- `MerkleTree.RootHash` (the root is never nil in the model). -/
def RootHash (t : MerkleTree) : String := t.root.hash

/-- `findDifferences`: recursive diff of two trees. -/
def findDifferences (h1 h2 : Option MerkleNode) (path : String) : List MerkleDiff :=
  match h1, h2 with
  | none, none => []
  | none, some _ => [⟨path, "node missing in first tree"⟩]
  | some _, none => [⟨path, "node missing in second tree"⟩]
  | some a, some b =>
    if a.hash ≠ b.hash then
      if a.left.isNone && a.right.isNone then
        [⟨path, "key difference detected"⟩]
      else
        findDifferences a.left b.left (path ++ "L") ++
          findDifferences a.right b.right (path ++ "R")
    else []
termination_by sizeOf h1
decreasing_by
  all_goals cases a
  all_goals simp [MerkleNode.left, MerkleNode.right]
  all_goals omega

/-- `CompareTrees`: equal root hashes means identical trees (`nil` diff,
rendered as `[]`); otherwise recurse from the roots. -/
def CompareTrees (t1 t2 : MerkleTree) : List MerkleDiff :=
  if RootHash t1 = RootHash t2 then []
  else findDifferences (some t1.root) (some t2.root) ""

theorem insertionSort_eq_of_perm (l1 l2 : List String) (hperm : l1.Perm l2) :
    List.insertionSort (· ≤ ·) l1 = List.insertionSort (· ≤ ·) l2 :=
  List.eq_of_perm_of_sorted
    (((List.perm_insertionSort _ l1).trans hperm).trans (List.perm_insertionSort _ l2).symm)
    (List.sorted_insertionSort _ l1) (List.sorted_insertionSort _ l2)

theorem rootHash_nonempty (h : String → String) (keys : List String) (hne : keys ≠ []) :
    RootHash (NewMerkleTree h keys) =
      (buildTree h ((List.insertionSort (· ≤ ·) keys).map
        (fun k => MerkleNode.mk (h k) none none))).hash := by
  unfold NewMerkleTree RootHash
  rw [if_neg hne]

/-- Shape of the tree over two sorted keys: one combined root over the two
leaf hashes. -/
theorem newMerkleTree_two (h : String → String) (a b : String) (hab : a ≤ b) :
    NewMerkleTree h [a, b] =
      ⟨.mk (h (h a ++ h b)) (some (.mk (h a) none none)) (some (.mk (h b) none none)),
       [.mk (h a) none none, .mk (h b) none none]⟩ := by
  unfold NewMerkleTree
  rw [if_neg (by simp)]
  simp [List.insertionSort, List.orderedInsert, hab, buildTree, pairUp, MerkleNode.hash]

/-- Diffing the trees over `{k1, k2}` and `{k1, k3}` (keys sorted, distinct
hashes): the shared left leaf matches, the right leaves differ. -/
theorem compareTrees_two_ne (h : String → String) (k1 k2 k3 : String)
    (h12 : k1 ≤ k2) (h13 : k1 ≤ k3)
    (hleaf : h k2 ≠ h k3) (hroot : h (h k1 ++ h k2) ≠ h (h k1 ++ h k3)) :
    CompareTrees (NewMerkleTree h [k1, k2]) (NewMerkleTree h [k1, k3]) =
      [⟨"R", "key difference detected"⟩] := by
  rw [newMerkleTree_two h k1 k2 h12, newMerkleTree_two h k1 k3 h13]
  simp only [CompareTrees, RootHash, MerkleNode.hash]
  rw [if_neg hroot]
  simp [findDifferences, MerkleNode.hash, MerkleNode.left, MerkleNode.right, hleaf, hroot]

/-- **C7.** Merkle determinism and self-comparison: the root hash depends
only on the key multiset (any supply order yields the same hash, since the
keys are sorted first); comparing any tree with itself yields the empty diff
list; and, whenever the hash keeps the relevant inputs apart (as SHA-1
does), the trees over `{k1, k2}` and `{k1, k3}` produce a non-empty diff
list. -/
theorem merkle_determinism_and_diff (h : String → String) (l1 l2 : List String)
    (hperm : l1.Perm l2) (t : MerkleTree) (k1 k2 k3 : String)
    (h12 : k1 ≤ k2) (h13 : k1 ≤ k3)
    (hleaf : h k2 ≠ h k3) (hroot : h (h k1 ++ h k2) ≠ h (h k1 ++ h k3)) :
    RootHash (NewMerkleTree h l1) = RootHash (NewMerkleTree h l2) ∧
    CompareTrees t t = [] ∧
    CompareTrees (NewMerkleTree h [k1, k2]) (NewMerkleTree h [k1, k3]) ≠ [] := by
  refine ⟨?_, ?_, ?_⟩
  · by_cases h1 : l1 = []
    · subst h1
      have h2 : l2 = [] := hperm.symm.eq_nil
      subst h2
      rfl
    · have h2 : l2 ≠ [] := by
        intro he
        exact h1 ((he ▸ hperm : l1.Perm ([] : List String)).eq_nil)
      rw [rootHash_nonempty h l1 h1, rootHash_nonempty h l2 h2,
        insertionSort_eq_of_perm l1 l2 hperm]
  · simp [CompareTrees]
  · rw [compareTrees_two_ne h k1 k2 k3 h12 h13 hleaf hroot]
    simp

/-- Witness for C7 at concrete inputs: hash `id`, key lists `["b","a"]` and
`["a","b"]`, and keys `a`, `b`, `c`. -/
theorem merkle_determinism_witness :
    (["b", "a"] : List String).Perm ["a", "b"] ∧
    ("a" : String) ≤ "b" ∧ ("a" : String) ≤ "c" ∧
    (id "b" : String) ≠ id "c" ∧
    (id (id "a" ++ id "b") : String) ≠ id (id "a" ++ id "c") ∧
    RootHash (NewMerkleTree id ["b", "a"]) = RootHash (NewMerkleTree id ["a", "b"]) ∧
    CompareTrees (NewMerkleTree id ["x"]) (NewMerkleTree id ["x"]) = [] ∧
    CompareTrees (NewMerkleTree id ["a", "b"]) (NewMerkleTree id ["a", "c"]) ≠ [] := by
  refine ⟨by decide, ?_, ?_, by decide, by decide, ?_⟩
  · rw [String.le_iff_toList_le]; decide
  · rw [String.le_iff_toList_le]; decide
  · exact merkle_determinism_and_diff id ["b", "a"] ["a", "b"] (by decide)
      (NewMerkleTree id ["x"]) "a" "b" "c"
      (by rw [String.le_iff_toList_le]; decide)
      (by rw [String.le_iff_toList_le]; decide)
      (by decide) (by decide)

/-! ## Cache layer (`CacheStorage`)

The Go struct holds `cache map[string]*list.Element` and an `accessList
*list.List` of `*CacheEntry`.  We model the map by its key set (`cmap`) and
the access list by the entry list front-to-back (`alist`); the map's values
are exactly the list elements, and since every reachable state keeps at most
one element per key, removing "the element the map points to" is rendered as
removal by key.  `time.Now()` enters as `now`; the entry TTL check
`time.Since(entry.accessTime) > cs.ttl` becomes `ttl < now - accessTime`. -/

inductive CacheStrategy where
  | lru
  | lfu
  | arc
  deriving Repr, DecidableEq

structure CacheEntry where
  key : String
  value : String
  accessTime : Int
  accessCount : Nat
  deriving Repr, DecidableEq

structure CacheState where
  cmap : List String
  alist : List CacheEntry
  inner : Store
  hits : Nat
  misses : Nat
  evictions : Nat
  deriving Repr, DecidableEq

/-- `NewCacheStorage` over a base store: empty map, empty access list. -/
def initCache (base : Store) : CacheState :=
  ⟨[], [], base, 0, 0, 0⟩

/-- `delete(cs.cache, key)`. -/
def removeKey (l : List String) (k : String) : List String :=
  l.filter (fun x => x ≠ k)

/-- `cs.accessList.Remove(elem)` for the element holding `key`. -/
def removeEntry (l : List CacheEntry) (k : String) : List CacheEntry :=
  l.filter (fun e => e.key ≠ k)

/-- The LFU scan of `evict`: walk the list from `Back()` to the front,
keeping the entry with the strictly smallest `accessCount` seen so far
(`minCount` starts at MaxInt, so the first — backmost — entry is always
taken). -/
def lfuVictim (l : List CacheEntry) : Option CacheEntry :=
  l.reverse.foldl
    (fun acc e =>
      match acc with
      | none => some e
      | some m => if e.accessCount < m.accessCount then some e else acc)
    none

/-- The `switch cs.strategy` of `evict`: LRU and the `default` branch take
`Back()`, LFU scans for the least-used entry. -/
def cacheVictim (strategy : CacheStrategy) (l : List CacheEntry) : Option CacheEntry :=
  match strategy with
  | .lru => l.getLast?
  | .lfu => lfuVictim l
  | .arc => l.getLast?

/-- `CacheStorage.evict`: pick the victim per strategy, remove it from map
and list, and bump the eviction counter. -/
def evict (strategy : CacheStrategy) (st : CacheState) : CacheState :=
  match cacheVictim strategy st.alist with
  | none => st
  | some e =>
    { st with
        cmap := removeKey st.cmap e.key,
        alist := removeEntry st.alist e.key,
        evictions := st.evictions + 1 }

/-- `CacheStorage.addToCache`: refresh an existing entry in place and move
it to the front; otherwise evict when full, then push a fresh entry. -/
def addToCache (strategy : CacheStrategy) (maxSize : Nat) (now : Int)
    (st : CacheState) (k v : String) : CacheState :=
  if k ∈ st.cmap then
    match st.alist.find? (fun e => e.key == k) with
    | some e =>
      let e1 : CacheEntry :=
        { e with value := v, accessTime := now, accessCount := e.accessCount + 1 }
      { st with alist := e1 :: removeEntry st.alist k }
    | none => st  -- unreachable: the map and the list agree in every reachable state
  else
    let st1 := if maxSize ≤ st.cmap.length then evict strategy st else st
    { st1 with
        cmap := k :: st1.cmap,
        alist := ⟨k, v, now, 1⟩ :: st1.alist }

/-- `CacheStorage.Get`: serve a fresh cached entry (bumping stats and, for
LRU, recency); drop a softly-expired entry and fall through; on a cache
miss, read the inner store and insert the result. -/
def cacheGet (strategy : CacheStrategy) (maxSize : Nat) (ttl now : Int)
    (st : CacheState) (k : String) : Option String × CacheState :=
  if k ∈ st.cmap then
    match st.alist.find? (fun e => e.key == k) with
    | some e =>
      if ttl < now - e.accessTime then
        let st1 := { st with
            cmap := removeKey st.cmap k,
            alist := removeEntry st.alist k,
            misses := st.misses + 1 }
        match st1.inner.get k with
        | none => (none, st1)
        | some v => (some v, addToCache strategy maxSize now st1 k v)
      else
        let e1 := { e with accessTime := now, accessCount := e.accessCount + 1 }
        match strategy with
        | .lru =>
          (some e.value,
           { st with alist := e1 :: removeEntry st.alist k, hits := st.hits + 1 })
        | _ =>
          (some e.value,
           { st with
               alist := st.alist.map (fun x => if x.key == k then e1 else x),
               hits := st.hits + 1 })
    | none => (none, st)  -- unreachable, as in addToCache
  else
    let st1 := { st with misses := st.misses + 1 }
    match st1.inner.get k with
    | none => (none, st1)
    | some v => (some v, addToCache strategy maxSize now st1 k v)

/-- `CacheStorage.Set`: write through to the inner store, then refresh the
cache. -/
def cacheSet (strategy : CacheStrategy) (maxSize : Nat) (now : Int)
    (st : CacheState) (k v : String) : CacheState :=
  let st1 := { st with inner := st.inner.set k v }
  addToCache strategy maxSize now st1 k v

/-- `CacheStorage.Delete`: drop the cached entry if present, then delete
from the inner store (whose `ErrKeyNotFound` is the returned error). -/
def cacheDelete (st : CacheState) (k : String) : CacheState :=
  let st1 :=
    if k ∈ st.cmap then
      { st with cmap := removeKey st.cmap k, alist := removeEntry st.alist k }
    else st
  { st1 with inner := st1.inner.del k }

/-- `CacheStorage.PreloadKeys`: insert each not-yet-cached key whose inner
lookup succeeds. -/
def preloadKeys (strategy : CacheStrategy) (maxSize : Nat) (now : Int)
    (st : CacheState) (keys : List String) : CacheState :=
  keys.foldl
    (fun acc k =>
      if k ∈ acc.cmap then acc
      else
        match acc.inner.get k with
        | some v => addToCache strategy maxSize now acc k v
        | none => acc)
    st

/-- A completed cache-layer operation, paired with the `time.Now()` instant
at which it runs. -/
inductive CacheOp where
  | get (k : String)
  | set (k v : String)
  | del (k : String)
  | preload (ks : List String)
  deriving Repr, DecidableEq

/-- Run a sequence of timed operations against the cache layer. -/
def runCacheOps (strategy : CacheStrategy) (maxSize : Nat) (ttl : Int)
    (ops : List (CacheOp × Int)) (st : CacheState) : CacheState :=
  ops.foldl
    (fun acc p =>
      match p.1 with
      | .get k => (cacheGet strategy maxSize ttl p.2 acc k).2
      | .set k v => cacheSet strategy maxSize p.2 acc k v
      | .del k => cacheDelete acc k
      | .preload ks => preloadKeys strategy maxSize p.2 acc ks)
    st

/-- The structural invariant of the cache layer: map and list agree (same
keys, no duplicates) and the size bound holds. -/
def CacheInv (maxSize : Nat) (st : CacheState) : Prop :=
  st.cmap.Perm (st.alist.map CacheEntry.key) ∧
  (st.alist.map CacheEntry.key).Nodup ∧
  st.cmap.length ≤ maxSize

theorem removeEntry_map_key (l : List CacheEntry) (k : String) :
    (removeEntry l k).map CacheEntry.key = removeKey (l.map CacheEntry.key) k := by
  induction l with
  | nil => rfl
  | cons e tl ih =>
    by_cases hk : e.key = k
    · simp [removeEntry, removeKey, hk] at ih ⊢
      exact ih
    · simp [removeEntry, removeKey, hk] at ih ⊢
      exact ih

theorem not_mem_removeKey (l : List String) (k : String) : k ∉ removeKey l k := by
  intro h
  have := List.of_mem_filter h
  simp at this

theorem mem_of_mem_removeKey {l : List String} {k x : String} (h : x ∈ removeKey l k) :
    x ∈ l :=
  List.mem_of_mem_filter h

theorem removeKey_cons_self (k : String) (tl : List String) (hna : k ∉ tl) :
    removeKey (k :: tl) k = tl := by
  have h1 : removeKey (k :: tl) k = removeKey tl k := by
    simp [removeKey, List.filter_cons]
  rw [h1]
  exact List.filter_eq_self.mpr (fun x hx => by
    simp only [decide_eq_true_eq]
    rintro rfl
    exact hna hx)

theorem removeKey_cons_ne (a k : String) (tl : List String) (hak : a ≠ k) :
    removeKey (a :: tl) k = a :: removeKey tl k := by
  simp [removeKey, List.filter_cons, hak]

theorem length_removeKey_of_mem {l : List String} {k : String}
    (hnd : l.Nodup) (hmem : k ∈ l) : (removeKey l k).length + 1 = l.length := by
  induction l with
  | nil => cases hmem
  | cons a tl ih =>
    rcases List.nodup_cons.mp hnd with ⟨hna, hntl⟩
    rcases List.mem_cons.mp hmem with rfl | hmem'
    · rw [removeKey_cons_self k tl hna]
      rfl
    · have hak : a ≠ k := by
        rintro rfl
        exact hna hmem'
      rw [removeKey_cons_ne a k tl hak]
      simp only [List.length_cons]
      rw [← ih hntl hmem']

theorem perm_cons_removeKey {l : List String} {k : String}
    (hnd : l.Nodup) (hmem : k ∈ l) : l.Perm (k :: removeKey l k) := by
  induction l with
  | nil => cases hmem
  | cons a tl ih =>
    rcases List.nodup_cons.mp hnd with ⟨hna, hntl⟩
    rcases List.mem_cons.mp hmem with rfl | hmem'
    · rw [removeKey_cons_self k tl hna]
    · have hak : a ≠ k := by
        rintro rfl
        exact hna hmem'
      rw [removeKey_cons_ne a k tl hak]
      exact ((ih hntl hmem').cons a).trans (List.Perm.swap k a (removeKey tl k))

theorem removeKey_perm {l1 l2 : List String} (k : String) (h : l1.Perm l2) :
    (removeKey l1 k).Perm (removeKey l2 k) :=
  h.filter _

theorem map_key_update (l : List CacheEntry) (k : String) (e1 : CacheEntry)
    (hk : e1.key = k) :
    ((l.map fun x => if x.key == k then e1 else x).map CacheEntry.key) =
      l.map CacheEntry.key := by
  induction l with
  | nil => rfl
  | cons e tl ih =>
    by_cases he : e.key = k
    · simp only [List.map_cons, if_pos (beq_iff_eq.mpr he)]
      rw [ih]
      simp [hk, he]
    · simp only [List.map_cons]
      rw [ih, if_neg (show ¬((e.key == k) = true) from by simpa using he)]

theorem lfuVictim_aux_mem :
    ∀ (l : List CacheEntry) (acc : Option CacheEntry) (e : CacheEntry),
      l.foldl
        (fun acc e =>
          match acc with
          | none => some e
          | some m => if e.accessCount < m.accessCount then some e else acc)
        acc = some e → e ∈ l ∨ acc = some e := by
  intro l
  induction l with
  | nil => intro acc e h; exact Or.inr h
  | cons a tl ih =>
    intro acc e h
    rcases ih _ e h with hmem | hstep
    · exact Or.inl (List.mem_cons_of_mem _ hmem)
    · match acc with
      | none =>
        have hstep2 : some a = some e := hstep
        injection hstep2 with h2
        exact Or.inl (h2 ▸ List.mem_cons_self a tl)
      | some m =>
        have hstep2 : (if a.accessCount < m.accessCount then some a else some m) = some e :=
          hstep
        by_cases hlt : a.accessCount < m.accessCount
        · rw [if_pos hlt] at hstep2
          injection hstep2 with h2
          exact Or.inl (h2 ▸ List.mem_cons_self a tl)
        · rw [if_neg hlt] at hstep2
          exact Or.inr hstep2

theorem lfuVictim_mem {l : List CacheEntry} {e : CacheEntry}
    (h : lfuVictim l = some e) : e ∈ l := by
  rcases lfuVictim_aux_mem l.reverse none e h with hmem | hacc
  · exact List.mem_reverse.mp hmem
  · cases hacc

theorem lfuVictim_aux_ne_none :
    ∀ (l : List CacheEntry) (acc : Option CacheEntry),
      l ≠ [] ∨ acc.isSome →
      (l.foldl
        (fun acc e =>
          match acc with
          | none => some e
          | some m => if e.accessCount < m.accessCount then some e else acc)
        acc).isSome := by
  intro l
  induction l with
  | nil =>
    intro acc h
    rcases h with h | h
    · exact absurd rfl h
    · exact h
  | cons a tl ih =>
    intro acc _
    apply ih
    right
    match acc with
    | none => rfl
    | some m =>
      show (if a.accessCount < m.accessCount then some a else some m).isSome = true
      by_cases hlt : a.accessCount < m.accessCount
      · rw [if_pos hlt]; rfl
      · rw [if_neg hlt]; rfl

theorem lfuVictim_isSome {l : List CacheEntry} (h : l ≠ []) :
    (lfuVictim l).isSome := by
  apply lfuVictim_aux_ne_none
  left
  simpa using h

theorem find?_key_eq : ∀ {l : List CacheEntry} {k : String} {e : CacheEntry},
    l.find? (fun x => x.key == k) = some e → e.key = k := by
  intro l
  induction l with
  | nil => intro k e h; cases h
  | cons a tl ih =>
    intro k e h
    by_cases ha : a.key = k
    · rw [List.find?_cons_of_pos _ (by simpa using ha)] at h
      injection h with h
      subst h
      exact ha
    · rw [List.find?_cons_of_neg _ (by simpa using ha)] at h
      exact ih h

theorem cacheVictim_mem {strategy : CacheStrategy} {l : List CacheEntry}
    {e : CacheEntry} (h : cacheVictim strategy l = some e) : e ∈ l := by
  cases strategy with
  | lru => exact List.mem_of_mem_getLast? h
  | lfu => exact lfuVictim_mem h
  | arc => exact List.mem_of_mem_getLast? h

theorem cacheVictim_isSome (strategy : CacheStrategy) {l : List CacheEntry}
    (h : l ≠ []) : (cacheVictim strategy l).isSome := by
  cases strategy with
  | lru =>
    cases hg : l.getLast? with
    | none => exact absurd (List.getLast?_eq_none_iff.mp hg) h
    | some e => simp [cacheVictim, hg]
  | lfu => exact lfuVictim_isSome h
  | arc =>
    cases hg : l.getLast? with
    | none => exact absurd (List.getLast?_eq_none_iff.mp hg) h
    | some e => simp [cacheVictim, hg]

theorem evict_state_eq (strategy : CacheStrategy) (st : CacheState) (e : CacheEntry)
    (hv : cacheVictim strategy st.alist = some e) :
    evict strategy st =
      { st with
          cmap := removeKey st.cmap e.key,
          alist := removeEntry st.alist e.key,
          evictions := st.evictions + 1 } := by
  unfold evict
  rw [hv]

theorem evict_spec (strategy : CacheStrategy) (maxSize : Nat) (st : CacheState)
    (hinv : CacheInv maxSize st) :
    CacheInv maxSize (evict strategy st) ∧
    ((evict strategy st).cmap.length + 1 = st.cmap.length ∨
      (st.cmap = [] ∧ evict strategy st = st)) ∧
    (∀ x, x ∈ (evict strategy st).cmap → x ∈ st.cmap) := by
  obtain ⟨hperm, hnd, hlen⟩ := hinv
  by_cases hal : st.alist = []
  · have hcm : st.cmap = [] := by
      have h := hperm
      rw [hal] at h
      simp only [List.map_nil] at h
      exact h.eq_nil
    have hev : evict strategy st = st := by
      unfold evict
      cases strategy <;> simp [cacheVictim, hal, lfuVictim]
    rw [hev]
    exact ⟨⟨hperm, hnd, hlen⟩, Or.inr ⟨hcm, rfl⟩, fun x hx => hx⟩
  · obtain ⟨e, hv⟩ := Option.isSome_iff_exists.mp (cacheVictim_isSome strategy hal)
    have hmem : e ∈ st.alist := cacheVictim_mem hv
    rw [evict_state_eq strategy st e hv]
    have hkey : e.key ∈ st.alist.map CacheEntry.key := List.mem_map_of_mem _ hmem
    have hkeyc : e.key ∈ st.cmap := hperm.mem_iff.mpr hkey
    have hcmapnd : st.cmap.Nodup := hperm.nodup_iff.mpr hnd
    refine ⟨⟨?_, ?_, ?_⟩, Or.inl ?_, ?_⟩
    · show (removeKey st.cmap e.key).Perm ((removeEntry st.alist e.key).map CacheEntry.key)
      rw [removeEntry_map_key]
      exact removeKey_perm _ hperm
    · show ((removeEntry st.alist e.key).map CacheEntry.key).Nodup
      rw [removeEntry_map_key]
      exact hnd.filter _
    · exact le_trans (List.length_filter_le _ _) hlen
    · exact length_removeKey_of_mem hcmapnd hkeyc
    · exact fun x hx => mem_of_mem_removeKey hx

theorem addToCache_inv (strategy : CacheStrategy) (maxSize : Nat) (now : Int)
    (st : CacheState) (k v : String) (hms : 1 ≤ maxSize)
    (hinv : CacheInv maxSize st) :
    CacheInv maxSize (addToCache strategy maxSize now st k v) := by
  obtain ⟨hperm, hnd, hlen⟩ := hinv
  by_cases hk : k ∈ st.cmap
  · cases hf : st.alist.find? (fun e => e.key == k) with
    | none =>
      simp only [addToCache, if_pos hk, hf]
      exact ⟨hperm, hnd, hlen⟩
    | some e =>
      have hek : e.key = k := find?_key_eq hf
      have hkey : k ∈ st.alist.map CacheEntry.key := hperm.mem_iff.mp hk
      simp only [addToCache, if_pos hk, hf]
      refine ⟨?_, ?_, hlen⟩
      · show st.cmap.Perm (List.map CacheEntry.key (_ :: removeEntry st.alist k))
        simp only [List.map_cons]
        rw [removeEntry_map_key]
        show st.cmap.Perm (e.key :: removeKey (st.alist.map CacheEntry.key) k)
        rw [hek]
        exact hperm.trans (perm_cons_removeKey hnd hkey)
      · show (List.map CacheEntry.key (_ :: removeEntry st.alist k)).Nodup
        simp only [List.map_cons]
        rw [removeEntry_map_key]
        show (e.key :: removeKey (st.alist.map CacheEntry.key) k).Nodup
        rw [hek]
        exact List.nodup_cons.mpr ⟨not_mem_removeKey _ _, hnd.filter _⟩
  · simp only [addToCache, if_neg hk]
    by_cases hfull : maxSize ≤ st.cmap.length
    · rw [if_pos hfull]
      obtain ⟨⟨hperm', hnd', hlen'⟩, hdec, hsub⟩ :=
        evict_spec strategy maxSize st ⟨hperm, hnd, hlen⟩
      have hk' : k ∉ (evict strategy st).cmap := fun hx => hk (hsub k hx)
      refine ⟨?_, ?_, ?_⟩
      · show (k :: (evict strategy st).cmap).Perm
          (List.map CacheEntry.key (⟨k, v, now, 1⟩ :: (evict strategy st).alist))
        simp only [List.map_cons]
        exact hperm'.cons k
      · show (List.map CacheEntry.key (⟨k, v, now, 1⟩ :: (evict strategy st).alist)).Nodup
        simp only [List.map_cons]
        refine List.nodup_cons.mpr ⟨?_, hnd'⟩
        intro hx
        exact hk' (hperm'.mem_iff.mpr hx)
      · show (k :: (evict strategy st).cmap).length ≤ maxSize
        simp only [List.length_cons]
        rcases hdec with hdec | ⟨hcm, hev⟩
        · rw [hdec]
          exact hlen
        · rw [hev, hcm]
          simpa using hms
    · rw [if_neg hfull]
      have hlt : st.cmap.length < maxSize := Nat.lt_of_not_le hfull
      refine ⟨?_, ?_, ?_⟩
      · show (k :: st.cmap).Perm
          (List.map CacheEntry.key (⟨k, v, now, 1⟩ :: st.alist))
        simp only [List.map_cons]
        exact hperm.cons k
      · show (List.map CacheEntry.key (⟨k, v, now, 1⟩ :: st.alist)).Nodup
        simp only [List.map_cons]
        refine List.nodup_cons.mpr ⟨?_, hnd⟩
        intro hx
        exact hk (hperm.mem_iff.mpr hx)
      · show (k :: st.cmap).length ≤ maxSize
        simp only [List.length_cons]
        omega

theorem cons_removeEntry_inv (cmap : List String) (alist : List CacheEntry)
    (k : String) (e1 : CacheEntry) (he1 : e1.key = k)
    (hperm : cmap.Perm (alist.map CacheEntry.key))
    (hnd : (alist.map CacheEntry.key).Nodup) (hk : k ∈ cmap) :
    cmap.Perm ((e1 :: removeEntry alist k).map CacheEntry.key) ∧
    ((e1 :: removeEntry alist k).map CacheEntry.key).Nodup := by
  have hkey : k ∈ alist.map CacheEntry.key := hperm.mem_iff.mp hk
  constructor
  · simp only [List.map_cons]
    rw [removeEntry_map_key, he1]
    exact hperm.trans (perm_cons_removeKey hnd hkey)
  · simp only [List.map_cons]
    rw [removeEntry_map_key, he1]
    exact List.nodup_cons.mpr ⟨not_mem_removeKey _ _, hnd.filter _⟩

theorem removeBoth_inv (cmap : List String) (alist : List CacheEntry) (k : String)
    (hperm : cmap.Perm (alist.map CacheEntry.key))
    (hnd : (alist.map CacheEntry.key).Nodup) :
    (removeKey cmap k).Perm ((removeEntry alist k).map CacheEntry.key) ∧
    ((removeEntry alist k).map CacheEntry.key).Nodup ∧
    (removeKey cmap k).length ≤ cmap.length := by
  refine ⟨?_, ?_, List.length_filter_le _ _⟩
  · rw [removeEntry_map_key]
    exact removeKey_perm _ hperm
  · rw [removeEntry_map_key]
    exact hnd.filter _

theorem cacheGet_inv (strategy : CacheStrategy) (maxSize : Nat) (ttl now : Int)
    (st : CacheState) (k : String) (hms : 1 ≤ maxSize)
    (hinv : CacheInv maxSize st) :
    CacheInv maxSize (cacheGet strategy maxSize ttl now st k).2 := by
  obtain ⟨hperm, hnd, hlen⟩ := hinv
  by_cases hk : k ∈ st.cmap
  · cases hf : st.alist.find? (fun e => e.key == k) with
    | none =>
      simp only [cacheGet, if_pos hk, hf]
      exact ⟨hperm, hnd, hlen⟩
    | some e =>
      have hek : e.key = k := find?_key_eq hf
      by_cases hex : ttl < now - e.accessTime
      · simp only [cacheGet, if_pos hk, hf, if_pos hex]
        obtain ⟨hp1, hn1, hl1⟩ := removeBoth_inv st.cmap st.alist k hperm hnd
        have hinv1 : CacheInv maxSize
            { st with
                cmap := removeKey st.cmap k,
                alist := removeEntry st.alist k,
                misses := st.misses + 1 } :=
          ⟨hp1, hn1, le_trans hl1 hlen⟩
        cases hg : st.inner.get k with
        | none =>
          simp only [hg]
          exact hinv1
        | some v =>
          simp only [hg]
          exact addToCache_inv strategy maxSize now _ k v hms hinv1
      · simp only [cacheGet, if_pos hk, hf, if_neg hex]
        cases strategy with
        | lru =>
          obtain ⟨hp1, hn1⟩ :=
            cons_removeEntry_inv st.cmap st.alist k
              { e with accessTime := now, accessCount := e.accessCount + 1 }
              hek hperm hnd hk
          exact ⟨hp1, hn1, hlen⟩
        | lfu =>
          refine ⟨?_, ?_, hlen⟩
          · show st.cmap.Perm ((st.alist.map fun x =>
              if x.key == k then
                { e with accessTime := now, accessCount := e.accessCount + 1 }
              else x).map CacheEntry.key)
            rw [map_key_update st.alist k
              { e with accessTime := now, accessCount := e.accessCount + 1 }
              (by simpa using hek)]
            exact hperm
          · show ((st.alist.map fun x =>
              if x.key == k then
                { e with accessTime := now, accessCount := e.accessCount + 1 }
              else x).map CacheEntry.key).Nodup
            rw [map_key_update st.alist k
              { e with accessTime := now, accessCount := e.accessCount + 1 }
              (by simpa using hek)]
            exact hnd
        | arc =>
          refine ⟨?_, ?_, hlen⟩
          · show st.cmap.Perm ((st.alist.map fun x =>
              if x.key == k then
                { e with accessTime := now, accessCount := e.accessCount + 1 }
              else x).map CacheEntry.key)
            rw [map_key_update st.alist k
              { e with accessTime := now, accessCount := e.accessCount + 1 }
              (by simpa using hek)]
            exact hperm
          · show ((st.alist.map fun x =>
              if x.key == k then
                { e with accessTime := now, accessCount := e.accessCount + 1 }
              else x).map CacheEntry.key).Nodup
            rw [map_key_update st.alist k
              { e with accessTime := now, accessCount := e.accessCount + 1 }
              (by simpa using hek)]
            exact hnd
  · simp only [cacheGet, if_neg hk]
    cases hg : st.inner.get k with
    | none =>
      simp only [hg]
      exact ⟨hperm, hnd, hlen⟩
    | some v =>
      simp only [hg]
      exact addToCache_inv strategy maxSize now _ k v hms ⟨hperm, hnd, hlen⟩

theorem cacheSet_inv (strategy : CacheStrategy) (maxSize : Nat) (now : Int)
    (st : CacheState) (k v : String) (hms : 1 ≤ maxSize)
    (hinv : CacheInv maxSize st) :
    CacheInv maxSize (cacheSet strategy maxSize now st k v) := by
  obtain ⟨hperm, hnd, hlen⟩ := hinv
  exact addToCache_inv strategy maxSize now _ k v hms ⟨hperm, hnd, hlen⟩

theorem cacheDelete_inv (st : CacheState) (k : String) (maxSize : Nat)
    (hinv : CacheInv maxSize st) :
    CacheInv maxSize (cacheDelete st k) := by
  obtain ⟨hperm, hnd, hlen⟩ := hinv
  by_cases hk : k ∈ st.cmap
  · simp only [cacheDelete, if_pos hk]
    obtain ⟨hp1, hn1, hl1⟩ := removeBoth_inv st.cmap st.alist k hperm hnd
    exact ⟨hp1, hn1, le_trans hl1 hlen⟩
  · simp only [cacheDelete, if_neg hk]
    exact ⟨hperm, hnd, hlen⟩

theorem preloadKeys_inv (strategy : CacheStrategy) (maxSize : Nat) (now : Int)
    (keys : List String) (st : CacheState) (hms : 1 ≤ maxSize)
    (hinv : CacheInv maxSize st) :
    CacheInv maxSize (preloadKeys strategy maxSize now st keys) := by
  induction keys generalizing st with
  | nil => exact hinv
  | cons a tl ih =>
    show CacheInv maxSize (preloadKeys strategy maxSize now _ tl)
    apply ih
    by_cases ha : a ∈ st.cmap
    · simpa [ha] using hinv
    · cases hg : st.inner.get a with
      | none => simpa [ha, hg] using hinv
      | some v =>
        simp only [ha, if_neg, hg]
        simpa [ha, hg] using addToCache_inv strategy maxSize now st a v hms hinv

theorem runCacheOps_inv (strategy : CacheStrategy) (maxSize : Nat) (ttl : Int)
    (ops : List (CacheOp × Int)) (st : CacheState) (hms : 1 ≤ maxSize)
    (hinv : CacheInv maxSize st) :
    CacheInv maxSize (runCacheOps strategy maxSize ttl ops st) := by
  induction ops generalizing st with
  | nil => exact hinv
  | cons p rest ih =>
    obtain ⟨op, t⟩ := p
    show CacheInv maxSize (runCacheOps strategy maxSize ttl rest _)
    apply ih
    cases op with
    | get k => exact cacheGet_inv strategy maxSize ttl t st k hms hinv
    | set k v => exact cacheSet_inv strategy maxSize t st k v hms hinv
    | del k => exact cacheDelete_inv st k maxSize hinv
    | preload ks => exact preloadKeys_inv strategy maxSize t ks st hms hinv

/-- **C9 (counterexample).** With `maxSize = 0` the size bound of the claim
fails: `addToCache` calls `evict` (the cache is "full" at 0 entries), the
eviction finds no victim in the empty access list, and the new entry is
inserted anyway, leaving 1 > 0 entries after the `Set` completes. -/
theorem cache_size_bound_fails_for_zero_maxSize :
    ¬((runCacheOps CacheStrategy.lru 0 1000 [(CacheOp.set "a" "1", 5)]
        (initCache Store.empty)).cmap.length ≤ 0) ∧
    (runCacheOps CacheStrategy.lru 0 1000 [(CacheOp.set "a" "1", 5)]
        (initCache Store.empty)).cmap.length = 1 := by
  decide

/-- **C9 (amended).** For every positive `maxSize`, every strategy, TTL and
timed operation sequence run from a fresh cache over any base store, the
lookup map and the access list agree on membership after every completed
operation, and neither exceeds `maxSize` entries.  (`maxSize = 0` is the
sole exception: eviction from an empty list is a no-op and insertion then
overshoots the bound.) -/
theorem cache_map_list_agree (strategy : CacheStrategy) (maxSize : Nat) (ttl : Int)
    (ops : List (CacheOp × Int)) (base : Store) (hms : 1 ≤ maxSize) :
    (∀ k, k ∈ (runCacheOps strategy maxSize ttl ops (initCache base)).cmap ↔
        k ∈ (runCacheOps strategy maxSize ttl ops (initCache base)).alist.map
          CacheEntry.key) ∧
    (runCacheOps strategy maxSize ttl ops (initCache base)).cmap.length ≤ maxSize ∧
    (runCacheOps strategy maxSize ttl ops (initCache base)).alist.length ≤ maxSize := by
  have hinv := runCacheOps_inv strategy maxSize ttl ops (initCache base) hms
    ⟨List.Perm.refl _, List.nodup_nil, Nat.zero_le _⟩
  obtain ⟨hperm, hnd, hlen⟩ := hinv
  refine ⟨fun k => hperm.mem_iff, hlen, ?_⟩
  have hl := hperm.length_eq
  rw [List.length_map] at hl
  omega

/-- Witness for C9 (amended): `maxSize = 2`, LRU, four operations (three
inserts — forcing one eviction — and a read). -/
theorem cache_map_list_agree_witness :
    (1 : Nat) ≤ 2 ∧
    ((∀ k, k ∈ (runCacheOps CacheStrategy.lru 2 1000
          [(CacheOp.set "a" "1", 0), (CacheOp.set "b" "2", 1),
           (CacheOp.set "c" "3", 2), (CacheOp.get "a", 3)]
          (initCache Store.empty)).cmap ↔
        k ∈ (runCacheOps CacheStrategy.lru 2 1000
          [(CacheOp.set "a" "1", 0), (CacheOp.set "b" "2", 1),
           (CacheOp.set "c" "3", 2), (CacheOp.get "a", 3)]
          (initCache Store.empty)).alist.map CacheEntry.key) ∧
      (runCacheOps CacheStrategy.lru 2 1000
          [(CacheOp.set "a" "1", 0), (CacheOp.set "b" "2", 1),
           (CacheOp.set "c" "3", 2), (CacheOp.get "a", 3)]
          (initCache Store.empty)).cmap.length ≤ 2 ∧
      (runCacheOps CacheStrategy.lru 2 1000
          [(CacheOp.set "a" "1", 0), (CacheOp.set "b" "2", 1),
           (CacheOp.set "c" "3", 2), (CacheOp.get "a", 3)]
          (initCache Store.empty)).alist.length ≤ 2) :=
  ⟨by decide,
   cache_map_list_agree CacheStrategy.lru 2 1000
     [(CacheOp.set "a" "1", 0), (CacheOp.set "b" "2", 1),
      (CacheOp.set "c" "3", 2), (CacheOp.get "a", 3)]
     Store.empty (by decide)⟩
